import Mathlib

/-!
# Verification of the rawspeed canonical-Huffman decode engine and ARW decoder

This development shallowly embeds the parts of the rawspeed repository under
`src/librawspeed` needed to settle the claims about:

* `HuffmanTableTree` (decompressors/HuffmanTableTree.h): table `setup`,
  the bit-by-bit symbol lookup `getValue`, and the two decode entry points
  `decodeLength` / `decodeNext` (both dispatching to `decode`);
* `ArwDecoder` (decoders/ArwDecoder.cpp): `SonyDecrypt` and `DecodeARW2`.

Machine integers are embedded as `Nat` (with explicit `% 2^32` where 32-bit
overflow matters) and `Int` for the signed residuals.  Fallible code
(`ThrowRDE`) is embedded as `Except String` / explicit error results.

The `BinaryHuffmanTree`, `AbstractHuffmanTable` and `BitStream` headers are not
part of the given sources; the definitions taken from them are modelled from
the specification's description of those collaborators and are marked
`Modelled from the spec:` in their doc comments.
-/

namespace Rawspeed

/-! ## Bit source

Modelled from the spec: the Bit Source collaborator (io/BitStream.h is not
among the given sources) serves bits most-significant-bit first from an
underlying buffer.  We embed it as the list of not-yet-consumed bits together
with a counter of bits consumed so far. -/

/-- State of a bit source: the remaining bits (MSB first) and the number of
bits consumed so far. -/
structure BitStreamState where
  bits : List Bool
  consumed : Nat
  deriving DecidableEq, Repr

/-- Value of a bit list read MSB-first, with accumulator (mirrors how the
lookup loop accumulates `partial.code` by shift-and-or). -/
def bitsToNatAcc : Nat → List Bool → Nat
  | acc, [] => acc
  | acc, b :: rest => bitsToNatAcc (2 * acc + (if b then 1 else 0)) rest

/-- Value of a bit list read MSB-first. -/
def bitsToNat (l : List Bool) : Nat := bitsToNatAcc 0 l

/-- Modelled from the spec: `getBitsNoFill(n)` returns the next `n` bits,
MSB-first, and consumes them (undefined in the source if fewer than `n` bits
are buffered; the model reads missing bits as 0). -/
def getBitsNoFill (bs : BitStreamState) (nbits : Nat) : Nat × BitStreamState :=
  (bitsToNat (bs.bits.take nbits), ⟨bs.bits.drop nbits, bs.consumed + nbits⟩)

/-- Modelled from the spec: `skipBitsNoFill(n)` discards `n` bits without
returning a value. -/
def skipBitsNoFill (bs : BitStreamState) (nbits : Nat) : BitStreamState :=
  ⟨bs.bits.drop nbits, bs.consumed + nbits⟩

/-- Modelled from the spec: `fill(n)` guarantees at least `n` bits are
buffered, consuming nothing.  Buffering is not observable in this model, so
`fill` is the identity on the bit-source state. -/
def fill (bs : BitStreamState) (_nbits : Nat) : BitStreamState := bs

/-! ## Binary Huffman tree

Modelled from the spec: `BinaryHuffmanTree` (decompressors/BinaryHuffmanTree.h
is not among the given sources) is an explicit ownership tree whose nodes are
Branches with two optional child slots ("zero" and "one") or Leaves holding
one symbol value.  A `nil` constructor embeds an absent child slot
(a null `unique_ptr`). -/

/-- A node slot of the binary Huffman tree: absent, a leaf holding a symbol
value, or a branch with a zero-child and a one-child. -/
inductive HNode (V : Type) where
  | nil : HNode V
  | leaf (v : V) : HNode V
  | branch (zero one : HNode V) : HNode V
  deriving DecidableEq, Repr

/-- Modelled from the spec: the number of vacant nodes at the given depth
below a slot — nodes neither occupied by an ancestor Leaf nor already a Leaf
themselves (`BinaryHuffmanTree::getAllVacantNodesAtDepth` returns this many
slots, in canonical zero-before-one order). -/
def countVacant {V : Type} : HNode V → Nat → Nat
  | .leaf _, _ => 0
  | .nil, d => 2 ^ d
  | .branch _ _, 0 => 1
  | .branch z o, d + 1 => countVacant z d + countVacant o d

/-- Modelled from the spec: turn the first `n` vacant slots at the given depth
(in canonical zero-before-one order) into Leaves holding the next symbol
values, materializing branches on the way down.  Returns the updated slot, the
number of leaves still to place, and the remaining symbol values. -/
def fillLeaves {V : Type} : Nat → HNode V → Nat → List V → HNode V × Nat × List V
  | _, t, 0, vs => (t, 0, vs)
  | _, .leaf v, n, vs => (.leaf v, n, vs)
  | 0, t, n + 1, vs =>
    match vs with
    | [] => (t, n + 1, [])
    | v :: vs' => (.leaf v, n, vs')
  | d + 1, .nil, n + 1, vs =>
    let r1 := fillLeaves d .nil (n + 1) vs
    let r2 := fillLeaves d .nil r1.2.1 r1.2.2
    (.branch r1.1 r2.1, r2.2.1, r2.2.2)
  | d + 1, .branch z o, n + 1, vs =>
    let r1 := fillLeaves d z (n + 1) vs
    let r2 := fillLeaves d o r1.2.1 r1.2.2
    (.branch r1.1 r2.1, r2.2.1, r2.2.2)

/-- Modelled from the spec: `BinaryHuffmanTree::pruneLeaflessBranches` removes
every Branch whose entire subtree contains no Leaf. -/
def pruneLeaflessBranches {V : Type} : HNode V → HNode V
  | .nil => .nil
  | .leaf v => .leaf v
  | .branch z o =>
    let z' := pruneLeaflessBranches z
    let o' := pruneLeaflessBranches o
    match z', o' with
    | .nil, .nil => .nil
    | _, _ => .branch z' o'

/-! ## Huffman decode engine (HuffmanTableTree.h) -/

/-- The configured decode engine: the built tree plus the two
immutable-after-setup behavior flags. -/
structure HuffmanTableTree (V : Type) where
  tree : HNode V
  fullDecode : Bool
  fixDNGBug16 : Bool
  deriving DecidableEq, Repr

/-- Modelled from the spec: `AbstractHuffmanTable::maxCodesCount` is the total
code count of the histogram (AbstractHuffmanTable.h is not among the given
sources). -/
def maxCodesCount (nCodesPerLength : List Nat) : Nat := nCodesPerLength.sum

/-- The code-length processing loop of `HuffmanTableTree::setup`: for each
code length (starting at 1), fail if the histogram claims more codes than
there are vacant nodes at that depth, otherwise convert the first
`nCodesForCurrLen` vacant nodes into Leaves consuming the value list in
order. -/
def setupGo {V : Type} : HNode V → Nat → List Nat → List V →
    Except String (HNode V × List V)
  | t, _, [], vs => Except.ok (t, vs)
  | t, codeLen, n :: rest, vs =>
    if countVacant t codeLen < n then
      Except.error "too many codes for len"
    else
      let r := fillLeaves codeLen t n vs
      setupGo r.1 (codeLen + 1) rest r.2.2

/-- `HuffmanTableTree::setup`: store the flags, validate the histogram and
value list, build the tree length by length, and prune leafless branches.
The histogram is the sequence of code counts for lengths `1, 2, ...`.
The three validity conditions are asserted in HuffmanTableTree.h and,
modelled from the spec, enforced by the (missing) AbstractHuffmanTable
setters, so a violated condition yields a propagated error. -/
def setup {V : Type} (fullDecode fixDNGBug16 : Bool)
    (nCodesPerLength : List Nat) (codeValues : List V) :
    Except String (HuffmanTableTree V) :=
  if nCodesPerLength.isEmpty then Except.error "empty histogram"
  else if maxCodesCount nCodesPerLength = 0 then Except.error "no codes in histogram"
  else if codeValues.length ≠ maxCodesCount nCodesPerLength then
    Except.error "histogram and value list size mismatch"
  else
    match setupGo HNode.nil 1 nCodesPerLength codeValues with
    | Except.error e => Except.error e
    | Except.ok (t, _) =>
      Except.ok ⟨pruneLeaflessBranches t, fullDecode, fixDNGBug16⟩

/-- The bit-by-bit lookup loop of `HuffmanTableTree::getValue`: at a branch,
read one more bit, shift it into the accumulated code, and descend into the
zero child if the bit is 0, else the one child; an absent child is a bad-code
error carrying the accumulated code and its bit length; a leaf yields its
value.  `code` and `len` are the bits accumulated before reaching this node. -/
def getValueGo {V : Type} : HNode V → Nat → Nat → BitStreamState →
    Except (Nat × Nat) (V × BitStreamState)
  | .nil, code, len, _ => Except.error (code, len)
  | .leaf v, _, _, bs => Except.ok (v, bs)
  | .branch z o, code, len, bs =>
    let r := getBitsNoFill bs 1
    if r.1 = 0 then getValueGo z (2 * code + r.1) (len + 1) r.2
    else getValueGo o (2 * code + r.1) (len + 1) r.2

/-- `HuffmanTableTree::getValue`: run the lookup loop from the root.  For a
configured engine the root is a Branch; the source dereferences it as such
(an unconfigured engine is a fatal precondition violation, embedded here as
an immediate error at zero accumulated bits). -/
def getValue {V : Type} (t : HuffmanTableTree V) (bs : BitStreamState) :
    Except (Nat × Nat) (V × BitStreamState) :=
  getValueGo t.tree 0 0 bs

/-- Modelled from the spec: `AbstractHuffmanTable::extend` sign-extends the
`len`-bit raw value per the lossless-JPEG convention: if the most significant
bit is 0 (`v < 2^(len-1)`) the residual is `v - (2^len - 1)`, otherwise `v`
unchanged. -/
def extend (v len : Nat) : Int :=
  if v < 2 ^ (len - 1) then (v : Int) - (2 ^ len - 1) else (v : Int)

/-- `HuffmanTableTree::decode`: fill 32 bits, look up a symbol, and either
return it raw (`FULL_DECODE = false`) or interpret it as a residual length:
16 is the `-32768` sentinel (with 16 bits skipped under `fixDNGBug16`),
0 is the residual 0, and any other length reads that many raw bits and
sign-extends them. -/
def decode (FULL_DECODE : Bool) (t : HuffmanTableTree Nat) (bs : BitStreamState) :
    Except (Nat × Nat) (Int × BitStreamState) :=
  let bs0 := fill bs 32
  match getValue t bs0 with
  | Except.error e => Except.error e
  | Except.ok (codeValue, bs1) =>
    let diff_l : Int := codeValue
    if !FULL_DECODE then Except.ok (diff_l, bs1)
    else if diff_l = 16 then
      Except.ok (-32768, if t.fixDNGBug16 then skipBitsNoFill bs1 16 else bs1)
    else if diff_l ≠ 0 then
      let r := getBitsNoFill bs1 codeValue
      Except.ok (extend r.1 codeValue, r.2)
    else Except.ok (0, bs1)

/-- `HuffmanTableTree::decodeLength`: requires `fullDecode = false`; returns
the raw symbol value. -/
def decodeLength (t : HuffmanTableTree Nat) (bs : BitStreamState) :
    Except (Nat × Nat) (Int × BitStreamState) :=
  decode false t bs

/-- `HuffmanTableTree::decodeNext`: requires `fullDecode = true`; returns the
fully reconstructed signed residual. -/
def decodeNext (t : HuffmanTableTree Nat) (bs : BitStreamState) :
    Except (Nat × Nat) (Int × BitStreamState) :=
  decode true t bs

end Rawspeed

namespace ArwDecoder

/-! ## ArwDecoder (decoders/ArwDecoder.cpp) -/

/-- 32-bit truncation. -/
def w32 (x : Nat) : Nat := x % 2 ^ 32

/-- `get4BE` applied to the in-memory bytes of a little-endian 32-bit word:
a byte reverse. -/
def bswap32 (x : Nat) : Nat :=
  ((x % 256) <<< 24) ||| (((x >>> 8) % 256) <<< 16) |||
    (((x >>> 16) % 256) <<< 8) ||| ((x >>> 24) % 256)

/-- One step of the pad-seeding recurrence `key = key * 48828125 + 1` in
32-bit arithmetic. -/
def sonyKeyStep (key : Nat) : Nat := w32 (key * 48828125 + 1)

/-- The loop extending the decryption pad from index 4 up to index 126:
`pad[p] = (pad[p-4]^pad[p-2]) << 1 | (pad[p-3]^pad[p-1]) >> 31` in 32-bit
arithmetic. -/
def sonyPadRest (pad : List Nat) (i : Nat) : List Nat :=
  if i < 127 then
    let v := w32 (((pad.getD (i - 4) 0 ^^^ pad.getD (i - 2) 0) <<< 1) |||
      ((pad.getD (i - 3) 0 ^^^ pad.getD (i - 1) 0) >>> 31))
    sonyPadRest (pad ++ [v]) (i + 1)
  else pad
  termination_by 127 - i

/-- The decryption pad `SonyDecrypt` derives from the key before the XOR
loop runs: indices 0..3 from the seeding recurrence, index 3 adjusted, indices
4..126 from the shift recurrence, all 127 then byte-reversed by the `get4BE`
loop.  `pad[127]` is never initialized in the source; the first loop
iteration overwrites it before any read, so the model supplies 0. -/
def sonyPad (key : Nat) : List Nat :=
  let k1 := sonyKeyStep key
  let k2 := sonyKeyStep k1
  let k3 := sonyKeyStep k2
  let k4 := sonyKeyStep k3
  let p3 := w32 ((k4 <<< 1) ||| ((k1 ^^^ k3) >>> 31))
  (sonyPadRest [k1, k2, k3, p3] 4).map bswap32 ++ [0]

/-- The `while (len--)` loop of `SonyDecrypt`: for each of `len` buffer words,
recompute `pad[p & 127] = pad[(p+1) & 127] ^ pad[(p+1+64) & 127]` and XOR the
word with that pad entry. -/
def sonyDecryptGo : Nat → List Nat → List Nat → Nat → List Nat
  | 0, buf, _, _ => buf
  | _ + 1, [], _, _ => []
  | len + 1, b :: buf, pad, p =>
    let v := pad.getD ((p + 1) % 128) 0 ^^^ pad.getD ((p + 1 + 64) % 128) 0
    (b ^^^ v) :: sonyDecryptGo len buf (pad.set (p % 128) v) (p + 1)

/-- `ArwDecoder::SonyDecrypt`: XOR the first `len` 32-bit words of the buffer
in place with the keystream generated from `key`. -/
def SonyDecrypt (buffer : List Nat) (len : Nat) (key : Nat) : List Nat :=
  sonyDecryptGo len buffer (sonyPad key) 127

/-- The raw image state `DecodeARW2` can write: pixel rows of 16-bit samples
plus the `mShiftDownScale` member. -/
structure RawImageState where
  pixels : List (List Nat)
  shiftDownScale : Nat
  deriving DecidableEq, Repr

/-- One output row of the 12-bit unpacking loop: each three input bytes
`g1 g2 g3` yield the two samples `g1 | (g2 & 0xf) << 8` and
`(g2 >> 4) | g3 << 4`; `k` is the number of pixel pairs per row. -/
def unpack12Row : Nat → List Nat → List Nat
  | 0, _ => []
  | k + 1, g1 :: g2 :: g3 :: rest =>
    (g1 ||| ((g2 &&& 15) <<< 8)) :: ((g2 >>> 4) ||| (g3 <<< 4)) :: unpack12Row k rest
  | _ + 1, _ => []

/-- The row loop of the 12-bit path: `h` rows of width `w`, the input pointer
advancing three bytes per pixel pair. -/
def unpack12Rows : Nat → Nat → List Nat → List (List Nat)
  | 0, _, _ => []
  | h + 1, w, bytes =>
    unpack12Row ((w + 1) / 2) bytes ::
      unpack12Rows h w (bytes.drop (3 * ((w + 1) / 2)))

/-- `ArwDecoder::DecodeARW2`: dispatch on bits-per-pixel.  The 8-bpp branch
hands the input to the threaded decoder (`startThreads` /
`decodeThreaded`), abstracted here as the `threadedDecode` parameter; the
12-bpp branch unpacks three bytes into two samples per pair and sets
`mShiftDownScale = 2`; any other depth throws `"Unsupported bit depth"`
before reading any input byte or touching the image. -/
def DecodeARW2 (threadedDecode : List Nat → RawImageState → RawImageState)
    (input : List Nat) (w h : Nat) (bpp : Nat) (img : RawImageState) :
    Except String RawImageState :=
  if bpp = 8 then Except.ok (threadedDecode input img)
  else if bpp = 12 then
    if input.length < w * 3 / 2 then
      Except.error "Sony Decoder: Image data section too small, file probably truncated"
    else
      let h' := if input.length < w * h * 3 / 2 then input.length / (w * 3 / 2) - 1 else h
      Except.ok { pixels := unpack12Rows h' w input, shiftDownScale := 2 }
  else Except.error "Unsupported bit depth"

end ArwDecoder

namespace Rawspeed

/-- Claim C1: for every call to `setup` where the supplied code-length
histogram is empty, or the computed maximum code count is zero, or the
symbol-value list's size does not equal the histogram's total code count,
`setup` fails by propagating an error and constructs no usable engine. -/
theorem setup_rejects_invalid_input (fd fb : Bool) (counts : List Nat)
    (values : List Nat)
    (h : counts = [] ∨ maxCodesCount counts = 0 ∨
      values.length ≠ maxCodesCount counts) :
    ∃ msg, setup fd fb counts values = Except.error msg := by
  by_cases h1 : counts.isEmpty
  · exact ⟨"empty histogram", by simp [setup, h1]⟩
  · by_cases h2 : maxCodesCount counts = 0
    · exact ⟨"no codes in histogram", by simp [setup, h1, h2]⟩
    · by_cases h3 : values.length ≠ maxCodesCount counts
      · exact ⟨"histogram and value list size mismatch", by simp [setup, h1, h2, h3]⟩
      · exfalso
        rcases h with h | h | h
        · simp [h] at h1
        · exact h2 h
        · exact h3 h

/-- Witness for C1: `setup` on the empty histogram fails. -/
theorem setup_rejects_invalid_input_witness :
    ∃ msg, setup true false [] ([] : List Nat) = Except.error msg :=
  setup_rejects_invalid_input true false [] [] (Or.inl rfl)

/-- Claim C2: with `fullDecode = true`, for a decoded length `L` with
`0 < L` and `L ≠ 16`, `decodeNext` reads exactly `L` further bits,
interprets them as the unsigned value `v`, and returns `v - (2^L - 1)` when
`v < 2^(L-1)` and `v` unchanged otherwise; for `L = 0` it returns exactly 0
and consumes no bits beyond the code itself; in particular for `L = 4` the
raw value 3 yields -12 and the raw value 12 yields 12. -/
theorem decodeNext_sign_extension (t : HuffmanTableTree Nat)
    (bs bs2 : BitStreamState) (L : Nat)
    (hfd : t.fullDecode = true)
    (hgv : getValue t (fill bs 32) = Except.ok (L, bs2)) :
    (0 < L → L ≠ 16 →
      decodeNext t bs = Except.ok
        ((if bitsToNat (bs2.bits.take L) < 2 ^ (L - 1) then
            (bitsToNat (bs2.bits.take L) : Int) - (2 ^ L - 1)
          else (bitsToNat (bs2.bits.take L) : Int)),
          ⟨bs2.bits.drop L, bs2.consumed + L⟩)) ∧
    (L = 0 → decodeNext t bs = Except.ok (0, bs2)) ∧
    extend 3 4 = -12 ∧ extend 12 4 = 12 := by
  refine ⟨?_, ?_, by decide, by decide⟩
  · intro h0 h16
    have h16i : (L : Int) ≠ 16 := by exact_mod_cast h16
    have h0i : (L : Int) ≠ 0 := by exact_mod_cast h0.ne'
    simp [decodeNext, decode, fill, hgv, h16i, h0i, extend, getBitsNoFill] at *
  · intro h0
    subst h0
    simp only [fill] at hgv
    simp [decodeNext, decode, fill, hgv]

/-- Witness for C2: on the table mapping code 0 to length 4, the bits
`0 0011` decode to the residual -12. -/
theorem decodeNext_sign_extension_witness :
    decodeNext ⟨.branch (.leaf 4) (.leaf 0), true, false⟩
        ⟨[false, false, false, true, true], 0⟩ =
      Except.ok (-12, ⟨[], 5⟩) := by
  have h := (decodeNext_sign_extension ⟨.branch (.leaf 4) (.leaf 0), true, false⟩
      ⟨[false, false, false, true, true], 0⟩ ⟨[false, false, true, true], 1⟩ 4
      rfl rfl).1 (by decide) (by decide)
  simpa using h

/-- Claim C3: with `fullDecode = true`, a decoded length of exactly 16
yields the residual -32768 regardless of any following bits; with
`fixDNGBug16` enabled exactly 16 subsequent bits are consumed and
discarded, and with it disabled none are. -/
theorem decodeNext_sentinel_16 (t : HuffmanTableTree Nat)
    (bs bs2 : BitStreamState)
    (hfd : t.fullDecode = true)
    (hgv : getValue t (fill bs 32) = Except.ok (16, bs2)) :
    (t.fixDNGBug16 = true →
      decodeNext t bs = Except.ok (-32768, ⟨bs2.bits.drop 16, bs2.consumed + 16⟩)) ∧
    (t.fixDNGBug16 = false → decodeNext t bs = Except.ok (-32768, bs2)) := by
  simp only [fill] at hgv
  constructor
  · intro hfix
    simp [decodeNext, decode, fill, hgv, hfix, skipBitsNoFill]
  · intro hfix
    simp [decodeNext, decode, fill, hgv, hfix]

/-- Witness for C3: the code 0 decoding to length 16 with `fixDNGBug16` set
yields -32768 and discards the following 16 bits. -/
theorem decodeNext_sentinel_16_witness :
    decodeNext ⟨.branch (.leaf 16) (.leaf 0), true, true⟩
        ⟨false :: List.replicate 16 true, 0⟩ =
      Except.ok (-32768, ⟨[], 17⟩) := by
  have h := (decodeNext_sentinel_16 ⟨.branch (.leaf 16) (.leaf 0), true, true⟩
      ⟨false :: List.replicate 16 true, 0⟩ ⟨List.replicate 16 true, 1⟩
      rfl rfl).1 rfl
  simpa using h

/-- Claim C7: the table built from the histogram with zero codes of length 1
and two codes of length 2 and value list `[a, b]` assigns canonical code 00
to `a` and code 01 to `b`, and looking up a bit source whose next bits are
00 returns `a` after consuming exactly 2 bits. -/
theorem canonical_round_trip (a b : Nat) (rest : List Bool) (fd fb : Bool) :
    ∃ t, setup fd fb [0, 2] [a, b] = Except.ok t ∧
      getValue t ⟨false :: false :: rest, 0⟩ = Except.ok (a, ⟨rest, 2⟩) ∧
      getValue t ⟨false :: true :: rest, 0⟩ = Except.ok (b, ⟨rest, 2⟩) :=
  ⟨⟨.branch (.branch (.leaf a) (.leaf b)) .nil, fd, fb⟩, rfl, rfl, rfl⟩

/-- Claim C8: with `fullDecode = false`, `decodeLength` first ensures at
least 32 bits are buffered, then performs the symbol lookup and returns the
looked-up symbol value unconverted, reading no extra bits and applying no
sign extension; a lookup failure is propagated unchanged. -/
theorem decodeLength_returns_raw (t : HuffmanTableTree Nat) (bs : BitStreamState)
    (hfd : t.fullDecode = false) :
    (∀ v bs2, getValue t (fill bs 32) = Except.ok (v, bs2) →
      decodeLength t bs = Except.ok ((v : Int), bs2)) ∧
    (∀ c l, getValue t (fill bs 32) = Except.error (c, l) →
      decodeLength t bs = Except.error (c, l)) := by
  constructor
  · intro v bs2 hgv
    simp only [fill] at hgv
    simp [decodeLength, decode, fill, hgv]
  · intro c l hgv
    simp only [fill] at hgv
    simp [decodeLength, decode, fill, hgv]

/-- Witness for C8: a raw symbol value of 9 is returned unconverted with no
bits consumed beyond its code. -/
theorem decodeLength_returns_raw_witness :
    decodeLength ⟨.branch (.leaf 9) (.leaf 0), false, false⟩
        ⟨[false, true, true], 0⟩ =
      Except.ok (9, ⟨[true, true], 1⟩) := by
  have h := (decodeLength_returns_raw ⟨.branch (.leaf 9) (.leaf 0), false, false⟩
      ⟨[false, true, true], 0⟩ rfl).1 9 ⟨[true, true], 1⟩ rfl
  simpa using h

end Rawspeed

namespace ArwDecoder

/-- The keystream evolution of `SonyDecrypt` depends only on the pad (hence
only on the key), so applying the XOR loop twice with the same pad and
starting index restores the buffer. -/
theorem sonyDecryptGo_involution : ∀ (len : Nat) (buf pad : List Nat) (p : Nat),
    sonyDecryptGo len (sonyDecryptGo len buf pad p) pad p = buf := by
  intro len
  induction len with
  | zero => intro buf pad p; rfl
  | succ n ih =>
    intro buf pad p
    cases buf with
    | nil => rfl
    | cons b bs => simp [sonyDecryptGo, Nat.xor_cancel_right, ih]

/-- Claim C9: for every buffer of 32-bit words, every length and every key,
applying `SonyDecrypt` twice in succession with the same key and length
restores the buffer to its original contents: the keystream pad is a
deterministic function of the key alone and each word is transformed by XOR
with it, so the operation is an involution. -/
theorem sonyDecrypt_involution (buffer : List Nat) (len key : Nat) :
    SonyDecrypt (SonyDecrypt buffer len key) len key = buffer :=
  sonyDecryptGo_involution len buffer (sonyPad key) 127

/-- Claim C10: for every bits-per-pixel value other than 8 and 12,
`DecodeARW2` fails with the unsupported-bit-depth error without reading any
input byte or writing any pixel data: the error result is produced for every
input buffer, every image state and every behavior of the threaded 8-bpp
decoder. -/
theorem decodeARW2_unsupported_bit_depth
    (threadedDecode : List Nat → RawImageState → RawImageState)
    (input : List Nat) (w h bpp : Nat) (img : RawImageState)
    (h8 : bpp ≠ 8) (h12 : bpp ≠ 12) :
    DecodeARW2 threadedDecode input w h bpp img =
      Except.error "Unsupported bit depth" := by
  simp [DecodeARW2, h8, h12]

/-- Witness for C10: bits-per-pixel 14 is rejected. -/
theorem decodeARW2_unsupported_bit_depth_witness :
    DecodeARW2 (fun _ i => i) [1, 2, 3] 2 1 14 ⟨[], 0⟩ =
      Except.error "Unsupported bit depth" :=
  decodeARW2_unsupported_bit_depth (fun _ i => i) [1, 2, 3] 2 1 14 ⟨[], 0⟩
    (by decide) (by decide)

end ArwDecoder

namespace Rawspeed

/-- Accumulator law for MSB-first bit values. -/
theorem bitsToNatAcc_eq : ∀ (l : List Bool) (a : Nat),
    bitsToNatAcc a l = a * 2 ^ l.length + bitsToNat l := by
  intro l
  induction l with
  | nil => intro a; simp [bitsToNatAcc, bitsToNat]
  | cons b tl ih =>
    intro a
    show bitsToNatAcc (2 * a + (if b then 1 else 0)) tl =
      a * 2 ^ (tl.length + 1) + bitsToNatAcc (2 * 0 + (if b then 1 else 0)) tl
    rw [ih, ih]
    ring

/-- The lookup loop's error payload: an error raised from a node reached with
`len` accumulated bits of value `code` carries at least `len` bits, and its
code is `code` extended by exactly the bits consumed past that node. -/
theorem getValueGo_error_spec :
    ∀ (t : HNode Nat) (code len : Nat) (bs : BitStreamState) (c l : Nat),
      getValueGo t code len bs = Except.error (c, l) →
      l - len ≤ bs.bits.length →
      len ≤ l ∧ c = code * 2 ^ (l - len) + bitsToNat (bs.bits.take (l - len)) := by
  intro t
  induction t with
  | nil =>
    intro code len bs c l h hlen
    simp only [getValueGo, Except.error.injEq, Prod.mk.injEq] at h
    obtain ⟨hc, hl⟩ := h
    subst hc
    subst hl
    simp [bitsToNat, bitsToNatAcc]
  | leaf v =>
    intro code len bs c l h hlen
    simp [getValueGo] at h
  | branch z o ihz iho =>
    intro code len bs c l h hlen
    simp only [getValueGo] at h
    have hdrop : ((getBitsNoFill bs 1).2).bits = bs.bits.drop 1 := rfl
    have hlen2 : l - (len + 1) ≤ ((getBitsNoFill bs 1).2).bits.length := by
      rw [hdrop, List.length_drop]
      omega
    by_cases hbit : (getBitsNoFill bs 1).1 = 0
    · rw [if_pos hbit] at h
      have hrec := ihz (2 * code + (getBitsNoFill bs 1).1) (len + 1)
        (getBitsNoFill bs 1).2 c l h hlen2
      obtain ⟨h1, h2⟩ := hrec
      refine ⟨by omega, ?_⟩
      rcases hbs : bs.bits with _ | ⟨bhead, tl⟩
      · exfalso
        rw [hbs] at hlen
        simp at hlen
        omega
      · have hkk : l - len = (l - (len + 1)) + 1 := by omega
        have hbite : (getBitsNoFill bs 1).1 = bitsToNat [bhead] := by
          simp [getBitsNoFill, hbs]
        have htl : ((getBitsNoFill bs 1).2).bits = tl := by rw [hdrop, hbs]; rfl
        rw [htl] at h2
        rw [hkk]
        have hktl : l - (len + 1) ≤ tl.length := by
          rw [htl] at hlen2; exact hlen2
        rw [List.take_succ_cons]
        show c = code * 2 ^ ((l - (len + 1)) + 1) +
          bitsToNatAcc (2 * 0 + (if bhead then 1 else 0)) (tl.take (l - (len + 1)))
        rw [bitsToNatAcc_eq, h2, hbite]
        rw [List.length_take, Nat.min_eq_left hktl]
        show (2 * code + bitsToNatAcc 0 [bhead]) * 2 ^ (l - (len + 1)) +
            bitsToNat (tl.take (l - (len + 1))) = _
        show (2 * code + bitsToNatAcc (2 * 0 + (if bhead then 1 else 0)) []) *
            2 ^ (l - (len + 1)) + bitsToNat (tl.take (l - (len + 1))) = _
        simp only [bitsToNatAcc]
        ring
    · rw [if_neg hbit] at h
      have hrec := iho (2 * code + (getBitsNoFill bs 1).1) (len + 1)
        (getBitsNoFill bs 1).2 c l h hlen2
      obtain ⟨h1, h2⟩ := hrec
      refine ⟨by omega, ?_⟩
      rcases hbs : bs.bits with _ | ⟨bhead, tl⟩
      · exfalso
        rw [hbs] at hlen
        simp at hlen
        omega
      · have hkk : l - len = (l - (len + 1)) + 1 := by omega
        have hbite : (getBitsNoFill bs 1).1 = bitsToNat [bhead] := by
          simp [getBitsNoFill, hbs]
        have htl : ((getBitsNoFill bs 1).2).bits = tl := by rw [hdrop, hbs]; rfl
        rw [htl] at h2
        rw [hkk]
        have hktl : l - (len + 1) ≤ tl.length := by
          rw [htl] at hlen2; exact hlen2
        rw [List.take_succ_cons]
        show c = code * 2 ^ ((l - (len + 1)) + 1) +
          bitsToNatAcc (2 * 0 + (if bhead then 1 else 0)) (tl.take (l - (len + 1)))
        rw [bitsToNatAcc_eq, h2, hbite]
        rw [List.length_take, Nat.min_eq_left hktl]
        show (2 * code + bitsToNatAcc (2 * 0 + (if bhead then 1 else 0)) []) *
            2 ^ (l - (len + 1)) + bitsToNat (tl.take (l - (len + 1))) = _
        simp only [bitsToNatAcc]
        ring

end Rawspeed

namespace Rawspeed

/-- Claim C5: whenever the bit-by-bit symbol lookup descends to an absent
child it fails with a bad-code error, returning no symbol value on that
call; the error reports the partial code value — the bits accumulated so
far read MSB-first — together with the number of bits accumulated. -/
theorem getValue_absent_child_error :
    (∀ (z o : HNode Nat) (code len : Nat) (bs : BitStreamState),
      (if bitsToNat (bs.bits.take 1) = 0 then z else o) = HNode.nil →
      getValueGo (HNode.branch z o) code len bs =
        Except.error (2 * code + bitsToNat (bs.bits.take 1), len + 1)) ∧
    (∀ (t : HuffmanTableTree Nat) (bs : BitStreamState) (c l : Nat),
      getValue t bs = Except.error (c, l) → l ≤ bs.bits.length →
      c = bitsToNat (bs.bits.take l)) := by
  constructor
  · intro z o code len bs habs
    by_cases hbit : bitsToNat (bs.bits.take 1) = 0
    · rw [if_pos hbit] at habs
      subst habs
      simp [getValueGo, getBitsNoFill, hbit]
    · rw [if_neg hbit] at habs
      subst habs
      simp [getValueGo, getBitsNoFill, hbit]
  · intro t bs c l h hlen
    have := getValueGo_error_spec t.tree 0 0 bs c l h (by simpa using hlen)
    simpa using this.2

/-- Witness for C5: on the tree whose one-child is absent, the bit 1 makes
the lookup fail with partial code 1 of length 1, as the payload law
predicts. -/
theorem getValue_absent_child_error_witness :
    getValueGo (HNode.branch (HNode.leaf 5) HNode.nil) 0 0 ⟨[true], 0⟩ =
      Except.error (2 * 0 + bitsToNat ([true].take 1), 0 + 1) ∧
    (1 : Nat) = bitsToNat ([true].take 1) :=
  ⟨getValue_absent_child_error.1 (HNode.leaf 5) HNode.nil 0 0 ⟨[true], 0⟩ (by decide),
    getValue_absent_child_error.2 ⟨HNode.branch (HNode.leaf 5) HNode.nil, true, false⟩
      ⟨[true], 0⟩ 1 1 rfl (by decide)⟩

/-- Splitting the code-length processing loop at a list append: the loop on
`pre ++ cs` runs the loop on `pre` and, if that succeeds, continues on `cs`
at the correspondingly advanced code length. -/
theorem setupGo_append {V : Type} :
    ∀ (pre : List Nat) (t : HNode V) (d : Nat) (vs : List V) (cs : List Nat),
      setupGo t d (pre ++ cs) vs =
        match setupGo t d pre vs with
        | Except.error e => Except.error e
        | Except.ok (t', vs') => setupGo t' (d + pre.length) cs vs' := by
  intro pre
  induction pre with
  | nil => intro t d vs cs; simp [setupGo]
  | cons n rest ih =>
    intro t d vs cs
    simp only [List.cons_append, setupGo]
    by_cases h : countVacant t d < n
    · simp [h]
    · simp only [h, if_false, if_neg h]
      simp only [List.append_eq]
      rw [ih]
      have : d + (n :: rest).length = d + 1 + rest.length := by
        simp [List.length_cons]
        omega
      rw [this]

/-- Claim C4: if, when tree construction comes to process some code length,
the number of vacant tree nodes at that depth is smaller than the
histogram's count for that length, then `setup` fails with a malformed-table
error and constructs no usable engine.  `pre` is the histogram up to that
length, `t` the tree built from it, and `1 + pre.length` the code length
being processed. -/
theorem setup_too_many_codes (fd fb : Bool) (pre : List Nat) (n : Nat)
    (rest : List Nat) (values : List Nat) (t : HNode Nat) (vs : List Nat)
    (hpre : setupGo HNode.nil 1 pre values = Except.ok (t, vs))
    (hvac : countVacant t (1 + pre.length) < n) :
    ∃ msg, setup fd fb (pre ++ n :: rest) values = Except.error msg := by
  have h1 : (pre ++ n :: rest).isEmpty = false := by
    cases pre <;> simp
  by_cases h2 : maxCodesCount (pre ++ n :: rest) = 0
  · exact ⟨"no codes in histogram", by simp [setup, h1, h2]⟩
  · by_cases h3 : values.length ≠ maxCodesCount (pre ++ n :: rest)
    · exact ⟨"histogram and value list size mismatch", by simp [setup, h1, h2, h3]⟩
    · have hsplit := setupGo_append pre (HNode.nil : HNode Nat) 1 values (n :: rest)
      rw [hpre] at hsplit
      dsimp only at hsplit
      have herr : setupGo t (1 + pre.length) (n :: rest) vs =
          Except.error "too many codes for len" := by
        simp [setupGo, hvac]
      rw [herr] at hsplit
      exact ⟨"too many codes for len", by simp [setup, h1, h2, h3, hsplit]⟩

/-- Witness for C4: three codes of length 1 exceed the two vacant depth-1
nodes of the empty tree, so `setup` fails. -/
theorem setup_too_many_codes_witness :
    ∃ msg, setup true false [3] [0, 0, 0] = Except.error msg :=
  setup_too_many_codes true false [] 3 [] [0, 0, 0] HNode.nil [0, 0, 0] rfl
    (by decide)

end Rawspeed

namespace Rawspeed

/-- All branches of the tree lie strictly above the given depth bound, so a
lookup can read at most that many bits. -/
def depthLE {V : Type} : HNode V → Nat → Bool
  | .nil, _ => true
  | .leaf _, _ => true
  | .branch _ _, 0 => false
  | .branch z o, d + 1 => depthLE z d && depthLE o d

theorem depthLE_mono {V : Type} : ∀ (t : HNode V) (b b' : Nat),
    depthLE t b = true → b ≤ b' → depthLE t b' = true := by
  intro t
  induction t with
  | nil => intros; simp [depthLE]
  | leaf v => intros; simp [depthLE]
  | branch z o ihz iho =>
    intro b b' h hbb
    cases b with
    | zero => simp [depthLE] at h
    | succ b0 =>
      cases b' with
      | zero => omega
      | succ b1 =>
        simp only [depthLE, Bool.and_eq_true] at h ⊢
        exact ⟨ihz b0 b1 h.1 (by omega), iho b0 b1 h.2 (by omega)⟩

/-- Placing leaves at depth `d ≤ b` keeps every branch above depth `b`. -/
theorem fillLeaves_depthLE {V : Type} :
    ∀ (d : Nat) (t : HNode V) (n : Nat) (vs : List V) (b : Nat),
      depthLE t b = true → d ≤ b → depthLE (fillLeaves d t n vs).1 b = true := by
  intro d
  induction d with
  | zero =>
    intro t n vs b ht hd
    cases n with
    | zero => simpa [fillLeaves]
    | succ n0 =>
      cases t with
      | leaf v => simpa [fillLeaves]
      | nil =>
        cases vs with
        | nil => simpa [fillLeaves]
        | cons v vs' => simp [fillLeaves, depthLE]
      | branch z o =>
        cases vs with
        | nil => simpa [fillLeaves]
        | cons v vs' => simp [fillLeaves, depthLE]
  | succ d0 ih =>
    intro t n vs b ht hd
    cases n with
    | zero => simpa [fillLeaves]
    | succ n0 =>
      cases t with
      | leaf v => simpa [fillLeaves]
      | nil =>
        cases b with
        | zero => omega
        | succ b0 =>
          simp only [fillLeaves, depthLE, Bool.and_eq_true]
          exact ⟨ih .nil (n0 + 1) vs b0 (by simp [depthLE]) (by omega),
            ih .nil _ _ b0 (by simp [depthLE]) (by omega)⟩
      | branch z o =>
        cases b with
        | zero => simp [depthLE] at ht
        | succ b0 =>
          simp only [depthLE, Bool.and_eq_true] at ht
          simp only [fillLeaves, depthLE, Bool.and_eq_true]
          exact ⟨ih z (n0 + 1) vs b0 ht.1 (by omega),
            ih o _ _ b0 ht.2 (by omega)⟩

/-- The code-length loop preserves the depth bound when every processed
length stays within it. -/
theorem setupGo_depthLE {V : Type} :
    ∀ (cs : List Nat) (t : HNode V) (d : Nat) (vs : List V) (t' : HNode V)
      (vs' : List V) (b : Nat),
      setupGo t d cs vs = Except.ok (t', vs') → depthLE t b = true →
      d + cs.length ≤ b + 1 → depthLE t' b = true := by
  intro cs
  induction cs with
  | nil =>
    intro t d vs t' vs' b h ht _
    simp only [setupGo, Except.ok.injEq, Prod.mk.injEq] at h
    rw [← h.1]
    exact ht
  | cons n rest ih =>
    intro t d vs t' vs' b h ht hlen
    simp only [setupGo] at h
    by_cases hv : countVacant t d < n
    · simp [hv] at h
    · rw [if_neg hv] at h
      simp only [List.length_cons] at hlen
      exact ih _ (d + 1) _ t' vs' b h
        (fillLeaves_depthLE d t n vs b ht (by omega)) (by omega)

/-- Pruning leafless branches never deepens the tree. -/
theorem prune_depthLE {V : Type} : ∀ (t : HNode V) (b : Nat),
    depthLE t b = true → depthLE (pruneLeaflessBranches t) b = true := by
  intro t
  induction t with
  | nil => intro b ht; simpa [pruneLeaflessBranches]
  | leaf v => intro b ht; simpa [pruneLeaflessBranches]
  | branch z o ihz iho =>
    intro b ht
    cases b with
    | zero => simp [depthLE] at ht
    | succ b0 =>
      simp only [depthLE, Bool.and_eq_true] at ht
      simp only [pruneLeaflessBranches]
      split
      · simp [depthLE]
      · simp only [depthLE, Bool.and_eq_true]
        exact ⟨ihz b0 ht.1, iho b0 ht.2⟩

/-- A lookup on a tree whose branches stay above depth `b` consumes at most
`b` bits before returning a value, and raises its bad-code error with at
most `b` bits accumulated past the entry point. -/
theorem getValueGo_bounded {V : Type} : ∀ (t : HNode V) (b : Nat),
    depthLE t b = true →
    ∀ (code len : Nat) (bs : BitStreamState),
      (∀ v bs', getValueGo t code len bs = Except.ok (v, bs') →
        bs'.consumed ≤ bs.consumed + b) ∧
      (∀ c l, getValueGo t code len bs = Except.error (c, l) → l ≤ len + b) := by
  intro t
  induction t with
  | nil =>
    intro b _ code len bs
    constructor
    · intro v bs' h
      simp [getValueGo] at h
    · intro c l h
      simp only [getValueGo, Except.error.injEq, Prod.mk.injEq] at h
      omega
  | leaf v0 =>
    intro b _ code len bs
    constructor
    · intro v bs' h
      simp only [getValueGo, Except.ok.injEq, Prod.mk.injEq] at h
      rw [← h.2]
      omega
    · intro c l h
      simp [getValueGo] at h
  | branch z o ihz iho =>
    intro b hb code len bs
    cases b with
    | zero => simp [depthLE] at hb
    | succ b0 =>
      simp only [depthLE, Bool.and_eq_true] at hb
      have hcons : ((getBitsNoFill bs 1).2).consumed = bs.consumed + 1 := rfl
      constructor
      · intro v bs' h
        simp only [getValueGo] at h
        by_cases hbit : (getBitsNoFill bs 1).1 = 0
        · rw [if_pos hbit] at h
          have := (ihz b0 hb.1 (2 * code + (getBitsNoFill bs 1).1) (len + 1)
            (getBitsNoFill bs 1).2).1 v bs' h
          omega
        · rw [if_neg hbit] at h
          have := (iho b0 hb.2 (2 * code + (getBitsNoFill bs 1).1) (len + 1)
            (getBitsNoFill bs 1).2).1 v bs' h
          omega
      · intro c l h
        simp only [getValueGo] at h
        by_cases hbit : (getBitsNoFill bs 1).1 = 0
        · rw [if_pos hbit] at h
          have := (ihz b0 hb.1 (2 * code + (getBitsNoFill bs 1).1) (len + 1)
            (getBitsNoFill bs 1).2).2 c l h
          omega
        · rw [if_neg hbit] at h
          have := (iho b0 hb.2 (2 * code + (getBitsNoFill bs 1).1) (len + 1)
            (getBitsNoFill bs 1).2).2 c l h
          omega

/-- Claim C6: for every engine configured by a successful `setup` (with the
histogram covering code lengths up to 16) and every bit source, the
symbol-lookup loop of `getValue` terminates: it either returns a leaf's
symbol value — consuming at most 16 bits — or signals the bad-code error
with at most 16 bits consumed, never looping unboundedly. -/
theorem getValue_terminates_bounded (fd fb : Bool) (counts : List Nat)
    (values : List Nat) (t : HuffmanTableTree Nat)
    (hlen : counts.length ≤ 16)
    (hsetup : setup fd fb counts values = Except.ok t)
    (bs : BitStreamState) :
    (∃ v bs', getValue t bs = Except.ok (v, bs') ∧
      bs'.consumed ≤ bs.consumed + 16) ∨
    (∃ c l, getValue t bs = Except.error (c, l) ∧ l ≤ 16) := by
  have hd : depthLE t.tree 16 = true := by
    by_cases h1 : counts.isEmpty
    · simp [setup, h1] at hsetup
    · by_cases h2 : maxCodesCount counts = 0
      · simp [setup, h1, h2] at hsetup
      · by_cases h3 : values.length ≠ maxCodesCount counts
        · simp [setup, h1, h2, h3] at hsetup
        · simp only [setup, h1, h2, h3] at hsetup
          rcases hgo : setupGo (HNode.nil : HNode Nat) 1 counts values with e | ⟨t0, vs0⟩
          · rw [hgo] at hsetup
            simp at hsetup
          · rw [hgo] at hsetup
            simp only [Bool.false_eq_true, if_false, Except.ok.injEq] at hsetup
            have hdep : depthLE t0 counts.length = true :=
              setupGo_depthLE counts HNode.nil 1 values t0 vs0 counts.length hgo
                (by simp [depthLE]) (by omega)
            have hdep16 : depthLE t0 16 = true := depthLE_mono t0 _ 16 hdep hlen
            rw [← hsetup]
            exact prune_depthLE t0 16 hdep16
  rcases hres : getValue t bs with ⟨c, l⟩ | ⟨v, bs'⟩
  · right
    exact ⟨c, l, rfl, by
      have := (getValueGo_bounded t.tree 16 hd 0 0 bs).2 c l hres
      omega⟩
  · left
    exact ⟨v, bs', rfl, (getValueGo_bounded t.tree 16 hd 0 0 bs).1 v bs' hres⟩

/-- Witness for C6: the engine built from two codes of length 1 resolves
the empty bit source (reading a padding 0 bit) within the 16-bit bound. -/
theorem getValue_terminates_bounded_witness :
    (∃ v bs', getValue ⟨.branch (.leaf 7) (.leaf 9), true, false⟩ ⟨[], 0⟩ =
        Except.ok (v, bs') ∧ bs'.consumed ≤ (0 : Nat) + 16) ∨
    (∃ c l, getValue ⟨.branch (.leaf 7) (.leaf 9), true, false⟩ ⟨[], 0⟩ =
        Except.error (c, l) ∧ l ≤ 16) :=
  getValue_terminates_bounded true false [2] [7, 9]
    ⟨.branch (.leaf 7) (.leaf 9), true, false⟩ (by decide) rfl ⟨[], 0⟩

end Rawspeed
